import Mathlib

/-!
Verification of the retrieval core of the civic-access repository
(src/backend/rag_engine.py).  The Python code is shallowly embedded:
text is List Char, the vector store is a list of (id, document) rows,
and the external models (sentence embedder, cross encoder) are abstract
score functions carried in an environment record.  The regex based
chunkers are embedded as explicit scanners whose behaviour was derived
by hand from the semantics of the three patterns in the source file;
the derivation is documented next to each definition.
-/

namespace CivicAccess

/-- Whitespace test used to model the regex class \s and Python str.strip.
The model covers the ASCII whitespace characters; the source documents and
all inputs considered here are ASCII. -/
def isWsChar (c : Char) : Bool :=
  c = ' ' || c = '\t' || c = '\n' || c = '\r' || c = '\x0b' || c = '\x0c'

/-- Python str.strip: remove leading and trailing whitespace. -/
def stripChars (l : List Char) : List Char :=
  ((l.dropWhile isWsChar).reverse.dropWhile isWsChar).reverse

/-- Model of text.replace applied to the six character pattern for a
non-breaking space entity, replacing each occurrence by a single space,
scanning left to right without overlap, as in rag_engine.clean_text. -/
def replaceNbsp : List Char → List Char
  | [] => []
  | '&' :: 'n' :: 'b' :: 's' :: 'p' :: ';' :: rest => ' ' :: replaceNbsp rest
  | c :: rest => c :: replaceNbsp rest

/-- Suffix of a whitespace run after its last newline. -/
def afterLastNl (run : List Char) : List Char :=
  (run.reverse.takeWhile (fun c => c ≠ '\n')).reverse

/-- Collapse one maximal whitespace run the way the substitution in
clean_text does: a match of the pattern (newline, any whitespace, newline)
consumes from the first newline of the run through the last newline of the
run and is replaced by two newlines; a run with fewer than two newlines
is left unchanged. -/
def flushRun (run : List Char) : List Char :=
  if 2 ≤ run.count '\n' then
    (run.takeWhile (fun c => c ≠ '\n')) ++ '\n' :: '\n' :: afterLastNl run
  else run

/-- Scanner for the blank-line-collapsing substitution of clean_text.
The first argument accumulates the current maximal whitespace run. -/
def collapseAux : List Char → List Char → List Char
  | run, [] => flushRun run
  | run, c :: cs =>
      if isWsChar c then collapseAux (run ++ [c]) cs
      else flushRun run ++ c :: collapseAux [] cs

/-- Model of the substitution collapsing runs of blank lines in clean_text. -/
def collapseNl (l : List Char) : List Char :=
  collapseAux [] l

/-- RAGEngine.clean_text: delete backslashes, replace the non-breaking
space entity by a space, collapse blank line runs, strip. -/
def clean_text (l : List Char) : List Char :=
  stripChars (collapseNl (replaceNbsp (l.filter (fun c => c ≠ '\\'))))

/-- Match of the constitution section header pattern (the word Section,
one or more whitespace characters, one or more digits, a dot) at the head
of the list.  The character classes of the pattern are disjoint, so the
greedy quantifiers are deterministic. -/
def matchSecHeader : List Char → Bool
  | 'S' :: 'e' :: 'c' :: 't' :: 'i' :: 'o' :: 'n' :: rest =>
      (match rest with | c :: _ => isWsChar c | [] => false) &&
      (match rest.dropWhile isWsChar with | c :: _ => c.isDigit | [] => false) &&
      (match (rest.dropWhile isWsChar).dropWhile Char.isDigit with
       | '.' :: _ => true | _ => false)
  | _ => false

/-- Drop characters until the constitution section header matches; this is
where the first regex match of chunk_constitution starts. -/
def dropUntilSecHeader : List Char → List Char
  | [] => []
  | c :: cs => if matchSecHeader (c :: cs) then c :: cs else dropUntilSecHeader cs

/-- Boundary of constitution chunks: a newline followed by a section
header, the lookahead of the chunk_constitution pattern. -/
def bdryConst : List Char → Bool
  | '\n' :: rest => matchSecHeader rest
  | _ => false

/-- Split a text at every position whose suffix satisfies the boundary
test.  Returns the segment before the first boundary and the list of
segments each of which starts at a boundary position. -/
def splitOnBdry (b : List Char → Bool) : List Char → List Char × List (List Char)
  | [] => ([], [])
  | c :: cs =>
      let r := splitOnBdry b cs
      if b (c :: cs) then ([], (c :: r.1) :: r.2) else (c :: r.1, r.2)

/-- Raw (pre-filter) matches of the chunk_constitution pattern.  The first
match starts at the first occurrence of a section header; every later
match starts right after the newline of a boundary, so the leading newline
of those segments is not part of the captured text.  No boundary can occur
inside a section header (a newline inside the header whitespace is always
followed by whitespace or a digit, never by the word Section), so checking
the boundary at every position is equivalent to the lazy scan of the
regex, which resumes after the header. -/
def rawChunksConstitution (t : List Char) : List (List Char) :=
  match dropUntilSecHeader t with
  | [] => []
  | c :: cs =>
      let r := splitOnBdry bdryConst (c :: cs)
      r.1 :: r.2.map (fun s => s.drop 1)

/-- Source label injected by chunk_constitution. -/
def constLabel : List Char := ("Constitution of Nigeria 1999: ").toList

/-- Source label injected by chunk_police_act. -/
def policeLabel : List Char := ("Nigeria Police Act: Section ").toList

/-- Source label injected by chunk_tenancy_law. -/
def tenancyLabel : List Char := ("Lagos Tenancy Law 2011: Section ").toList

/-- RAGEngine.chunk_constitution: keep stripped fragments longer than 30
characters and prepend the source label. -/
def chunk_constitution (t : List Char) : List (List Char) :=
  (rawChunksConstitution t).filterMap (fun ch =>
    let cl := stripChars ch
    if 30 < cl.length then some (constLabel ++ cl) else none)

/-- Boundary of police act chunks: newline, one or more digits, a dot, at
least one whitespace character, matching the lookahead of the
chunk_police_act pattern. -/
def bdryPolice : List Char → Bool
  | '\n' :: rest =>
      (match rest with | c :: _ => c.isDigit | [] => false) &&
      (match rest.dropWhile Char.isDigit with
       | '.' :: r2 => (match r2 with | c :: _ => isWsChar c | [] => false)
       | _ => false)
  | _ => false

/-- A police segment whose text after the header dot is all whitespace.
For such a segment the greedy whitespace quantifier of the header eats
through the newline starting the next boundary, so the regex match spans
into the following segment. -/
def policeEmptyBody : List Char → Bool
  | '\n' :: rest =>
      match rest.dropWhile Char.isDigit with
      | '.' :: body => body.all isWsChar
      | _ => false
  | _ => false

/-- Merge pass reproducing the greedy whitespace behaviour of the
chunk_police_act pattern: a segment with an all-whitespace body is glued
to the following segment, and the glued chunk never needs to be merged
again because it contains the non-whitespace header of the swallowed
segment after its own dot. -/
def mergePolice : List (List Char) → List (List Char)
  | [] => []
  | [s] => [s]
  | s :: t :: rest =>
      if policeEmptyBody s then (s ++ t) :: mergePolice rest
      else s :: mergePolice (t :: rest)

/-- Raw matches of the chunk_police_act pattern: the first match starts at
the first boundary occurrence (the pattern itself begins with the boundary
shape), the segment before it is dropped, and empty-body segments are
merged into their successor. -/
def rawChunksPoliceAct (t : List Char) : List (List Char) :=
  mergePolice (splitOnBdry bdryPolice t).2

/-- RAGEngine.chunk_police_act: keep stripped fragments longer than 50
characters and prepend the source label. -/
def chunk_police_act (t : List Char) : List (List Char) :=
  (rawChunksPoliceAct t).filterMap (fun ch =>
    let cl := stripChars ch
    if 50 < cl.length then some (policeLabel ++ cl) else none)

/-- Boundary of tenancy chunks: a newline followed by a digit.  The
optional lazy group of the chunk_tenancy_law lookahead can always match
the empty string, so the lookahead reduces to newline-digit. -/
def bdryTenancy : List Char → Bool
  | '\n' :: c :: _ => c.isDigit
  | _ => false

/-- Raw matches of the chunk_tenancy_law pattern: segments starting at a
newline-digit boundary; the text before the first boundary is dropped.
The lazy groups of the pattern always succeed with their shortest
extension, so each match ends exactly at the next boundary or at the end
of the text. -/
def rawChunksTenancy (t : List Char) : List (List Char) :=
  (splitOnBdry bdryTenancy t).2

/-- Excluded heading filtered out by chunk_tenancy_law. -/
def tocMarker : List Char := ("Arrangement of Sections").toList

/-- Python substring containment: pat occurs contiguously in l. -/
def containsSeq (pat l : List Char) : Bool :=
  (List.range (l.length + 1)).any (fun i => pat.isPrefixOf (l.drop i))

/-- RAGEngine.chunk_tenancy_law: keep stripped fragments longer than 50
characters that do not contain the table-of-contents heading, and prepend
the source label. -/
def chunk_tenancy_law (t : List Char) : List (List Char) :=
  (rawChunksTenancy t).filterMap (fun ch =>
    let cl := stripChars ch
    if 50 < cl.length ∧ containsSeq tocMarker cl = false
    then some (tenancyLabel ++ cl) else none)

/-- Stable insertion: place a before the first b with r a b.  Used to
model Python sorted, which is a stable sort; a stable sort is determined
up to extensional equality by sortedness and stability, so the choice of
insertion sort is immaterial. -/
def insertSorted {α : Type} (r : α → α → Bool) (a : α) : List α → List α
  | [] => [a]
  | b :: l => if r a b then a :: b :: l else b :: insertSorted r a l

/-- Stable sort with respect to the Boolean relation r. -/
def sortStable {α : Type} (r : α → α → Bool) : List α → List α
  | [] => []
  | a :: l => insertSorted r a (sortStable r l)

/-- External collaborators of the engine: the filesystem (path to file
contents), the embedding distance between a question and a stored
document (composing the sentence embedder with the vector metric of the
store), and the cross-encoder relevance score. -/
structure Env where
  fs : String → Option (List Char)
  dist : List Char → List Char → Int
  crossScore : List Char → List Char → Int

/-- Engine state: the collection rows (chunk id, chunk text) and the
loaded flag.  Embeddings are not stored separately: they are determined
by the chunk text through the fixed embedding model, which the Env
distance function consumes directly. -/
structure Engine where
  rows : List (String × List Char)
  is_loaded : Bool
deriving DecidableEq

/-- The fresh engine right after construction. -/
def engine0 : Engine := { rows := [], is_loaded := false }

/-- Path of the constitution source file. -/
def constPath : String := "data/Constitution of the Federal Republic of Nigeria.txt"

/-- Path of the police act source file. -/
def policePath : String := "data/P.19.txt"

/-- Path of the tenancy law source file. -/
def tenancyPath : String := "data/Lagos Tenancy Laws.txt"

/-- Id prefix of constitution rows. -/
def constPfx : String := "const_"

/-- Id prefix of police act rows. -/
def policePfx : String := "police_"

/-- Id prefix of tenancy law rows. -/
def tenancyPfx : String := "tenancy_"

/-- Rows added for one document: ids are the document id prefix followed
by the decimal index, paired with the chunk texts, as in the f-string id
generation of load_constitution. -/
def mkRows (pfx : String) (chunks : List (List Char)) : List (String × List Char) :=
  ((List.range chunks.length).zip chunks).map (fun p => (pfx ++ Nat.repr p.1, p.2))

/-- One document block of load_constitution: if the file exists, clean it,
chunk it, and when the chunk list is nonempty append the rows to the
collection; an absent file leaves the engine unchanged. -/
def loadDoc (env : Env) (path : String) (chunker : List Char → List (List Char))
    (pfx : String) (e : Engine) : Engine :=
  match env.fs path with
  | none => e
  | some raw =>
      let chunks := chunker (clean_text raw)
      if chunks.isEmpty then e
      else { e with rows := e.rows ++ mkRows pfx chunks }

/-- RAGEngine.load_constitution: a no-op when already loaded, otherwise
the three document blocks in order followed by setting the loaded flag. -/
def load_constitution (env : Env) (e : Engine) : Engine :=
  if e.is_loaded then e
  else
    let e1 := loadDoc env constPath chunk_constitution constPfx e
    let e2 := loadDoc env policePath chunk_police_act policePfx e1
    let e3 := loadDoc env tenancyPath chunk_tenancy_law tenancyPfx e2
    { e3 with is_loaded := true }

/-- The load-on-first-use guard at the top of query_law. -/
def ensureLoaded (env : Env) (e : Engine) : Engine :=
  if e.is_loaded then e else load_constitution env e

/-- The broad search stage: the collection query returns up to k stored
documents ordered by embedding distance to the question. -/
def broadSearch (env : Env) (e : Engine) (q : List Char) (k : Nat) : List (List Char) :=
  (sortStable (fun d1 d2 => decide (env.dist q d1 ≤ env.dist q d2)) (e.rows.map Prod.snd)).take k

/-- The reranking stage of query_law: pair every candidate with its cross
encoder score and sort by score descending; Python sorted is stable, so
ties keep their retrieval order. -/
def rerank (score : List Char → List Char → Int) (q : List Char)
    (cands : List (List Char)) : List (List Char × Int) :=
  sortStable (fun x y => decide (y.2 ≤ x.2)) (cands.zip (cands.map (score q)))

/-- RAGEngine.query_law: ensure loaded, broad search, guard on the outer
result list (a singleton, hence never empty, kept for faithfulness),
rerank, truncate to final_k, return the texts. -/
def query_law (env : Env) (e : Engine) (q : List Char)
    (initial_k final_k : Nat) : List (List Char) :=
  let e2 := ensureLoaded env e
  let docsResult := [broadSearch env e2 q initial_k]
  match docsResult with
  | [] => []
  | cands :: _ => ((rerank env.crossScore q cands).take final_k).map Prod.fst

/-- Ids generated for one document having n chunks. -/
def idsFor (pfx : String) (n : Nat) : List String :=
  (List.range n).map (fun i => pfx ++ Nat.repr i)

/-- Delete every whitespace character; two texts are equal up to
whitespace normalization exactly when their images under eraseWs agree. -/
def eraseWs (l : List Char) : List Char :=
  l.filter (fun c => !isWsChar c)

theorem length_insertSorted {α : Type} (r : α → α → Bool) (a : α) (l : List α) :
    (insertSorted r a l).length = l.length + 1 := by
  induction l with
  | nil => rfl
  | cons b t ih =>
      simp only [insertSorted]
      split <;> simp [ih]

theorem length_sortStable {α : Type} (r : α → α → Bool) (l : List α) :
    (sortStable r l).length = l.length := by
  induction l with
  | nil => rfl
  | cons a t ih => simp [sortStable, length_insertSorted, ih]

theorem perm_insertSorted {α : Type} (r : α → α → Bool) (a : α) (l : List α) :
    (insertSorted r a l).Perm (a :: l) := by
  induction l with
  | nil => exact List.Perm.refl _
  | cons b t ih =>
      simp only [insertSorted]
      split
      · exact List.Perm.refl _
      · exact (ih.cons b).trans (List.Perm.swap a b t)

theorem perm_sortStable {α : Type} (r : α → α → Bool) (l : List α) :
    (sortStable r l).Perm l := by
  induction l with
  | nil => exact List.Perm.refl _
  | cons a t ih => exact (perm_insertSorted r a (sortStable r t)).trans (ih.cons a)

theorem pairwise_insertSorted {α : Type} (r : α → α → Bool)
    (total : ∀ a b, r a b = true ∨ r b a = true)
    (htr : ∀ a b c, r a b = true → r b c = true → r a c = true)
    (a : α) (l : List α) (h : l.Pairwise (fun x y => r x y = true)) :
    (insertSorted r a l).Pairwise (fun x y => r x y = true) := by
  induction l with
  | nil => simp [insertSorted]
  | cons b t ih =>
      simp only [insertSorted]
      split
      · rename_i hab
        refine List.Pairwise.cons ?_ h
        intro x hx
        rcases List.mem_cons.mp hx with hx | hx
        · exact hx ▸ hab
        · exact htr a b x hab ((List.pairwise_cons.mp h).1 x hx)
      · rename_i hab
        have hba : r b a = true := by
          rcases total a b with h1 | h1
          · exact absurd h1 hab
          · exact h1
        refine List.Pairwise.cons ?_ (ih (List.Pairwise.of_cons h))
        intro x hx
        have hx2 := (perm_insertSorted r a t).mem_iff.mp hx
        rcases List.mem_cons.mp hx2 with hx2 | hx2
        · exact hx2 ▸ hba
        · exact (List.pairwise_cons.mp h).1 x hx2

theorem pairwise_sortStable {α : Type} (r : α → α → Bool)
    (total : ∀ a b, r a b = true ∨ r b a = true)
    (htr : ∀ a b c, r a b = true → r b c = true → r a c = true)
    (l : List α) : (sortStable r l).Pairwise (fun x y => r x y = true) := by
  induction l with
  | nil => simp [sortStable]
  | cons a t ih => exact pairwise_insertSorted r total htr a (sortStable r t) ih

theorem filter_insertSorted {α : Type} (r : α → α → Bool) (p : α → Bool) (a : α)
    (l : List α) (hp : ∀ c, p a = true → r a c = false → p c = false) :
    (insertSorted r a l).filter p =
      if p a then a :: l.filter p else l.filter p := by
  induction l with
  | nil => cases hpa : p a <;> simp [insertSorted, List.filter, hpa]
  | cons b t ih =>
      simp only [insertSorted]
      by_cases hab : r a b = true
      · simp only [hab, if_true]
        by_cases hpa : p a = true
        · simp [List.filter_cons, hpa]
        · simp [List.filter_cons, hpa]
      · have hab2 : r a b = false := by
          cases h2 : r a b
          · rfl
          · exact absurd h2 hab
        simp only [hab2, Bool.false_eq_true, if_false]
        by_cases hpa : p a = true
        · have hpb : p b = false := hp b hpa hab2
          simp [List.filter_cons, hpb, ih, hpa]
        · have hpa2 : p a = false := by
            cases h2 : p a
            · rfl
            · exact absurd h2 hpa
          simp [List.filter_cons, ih, hpa2]

theorem filter_sortStable {α : Type} (r : α → α → Bool) (p : α → Bool)
    (hp : ∀ a c, p a = true → r a c = false → p c = false) (l : List α) :
    (sortStable r l).filter p = l.filter p := by
  induction l with
  | nil => rfl
  | cons a t ih =>
      simp only [sortStable]
      rw [filter_insertSorted r p a (sortStable r t) (hp a)]
      by_cases hpa : p a = true
      · simp [List.filter_cons, hpa, ih]
      · have hpa2 : p a = false := by
          cases h2 : p a
          · rfl
          · exact absurd h2 hpa
        simp [List.filter_cons, hpa2, ih]

theorem splitOnBdry_concat (b : List Char → Bool) (l : List Char) :
    (splitOnBdry b l).1 ++ ((splitOnBdry b l).2).flatten = l := by
  induction l with
  | nil => rfl
  | cons c cs ih =>
      simp only [splitOnBdry]
      split
      · simpa using ih
      · simpa using ih

theorem splitOnBdry_snd_head (b : List Char → Bool)
    (hb : ∀ l, b l = true → ∃ t, l = '\n' :: t) (l : List Char) :
    ∀ s ∈ (splitOnBdry b l).2, ∃ t, s = '\n' :: t := by
  induction l with
  | nil => intro s hs; simp [splitOnBdry] at hs
  | cons c cs ih =>
      intro s hs
      simp only [splitOnBdry] at hs
      by_cases hbc : b (c :: cs) = true
      · simp only [hbc, if_true] at hs
        rcases List.mem_cons.mp hs with hs | hs
        · obtain ⟨t, ht⟩ := hb (c :: cs) hbc
          injection ht with h1 h2
          exact ⟨(splitOnBdry b cs).1, by rw [hs, h1]⟩
        · exact ih s hs
      · simp only [hbc] at hs
        exact ih s hs

/-- Numeric value of a decimal digit character. -/
def digitVal (c : Char) : Nat := c.toNat - 48

/-- Value of a big-endian decimal digit string. -/
def digitsVal (l : List Char) : Nat :=
  l.foldl (fun a c => a * 10 + digitVal c) 0

theorem digitVal_digitChar (d : Nat) (h : d < 10) :
    digitVal (Nat.digitChar d) = d := by
  interval_cases d <;> rfl

theorem toDigitsCore_val : ∀ (fuel n : Nat) (ds : List Char), n < fuel →
    ∃ digs : List Char,
      Nat.toDigitsCore 10 fuel n ds = digs ++ ds ∧ digitsVal digs = n := by
  intro fuel
  induction fuel with
  | zero => intro n ds h; omega
  | succ fuel ih =>
      intro n ds h
      by_cases h0 : n / 10 = 0
      · refine ⟨[Nat.digitChar (n % 10)], ?_, ?_⟩
        · simp [Nat.toDigitsCore, h0]
        · have hn : n % 10 = n := by omega
          have hv : digitsVal [Nat.digitChar (n % 10)] = n % 10 := by
            simp [digitsVal, digitVal_digitChar (n % 10) (by omega)]
          rw [hv]
          exact hn
      · have h1 : n / 10 < fuel := by omega
        obtain ⟨digs, hd, hv⟩ := ih (n / 10) (Nat.digitChar (n % 10) :: ds) h1
        refine ⟨digs ++ [Nat.digitChar (n % 10)], ?_, ?_⟩
        · simp [Nat.toDigitsCore, h0, hd]
        · simp only [digitsVal, List.foldl_append] at hv ⊢
          simp [List.foldl, hv, digitVal_digitChar (n % 10) (by omega)]
          omega

theorem nat_repr_inj {m n : Nat} (h : Nat.repr m = Nat.repr n) : m = n := by
  obtain ⟨dm, hdm, hvm⟩ := toDigitsCore_val (m + 1) m [] (by omega)
  obtain ⟨dn, hdn, hvn⟩ := toDigitsCore_val (n + 1) n [] (by omega)
  have h2 : (Nat.toDigits 10 m).asString = (Nat.toDigits 10 n).asString := h
  rw [Nat.toDigits, Nat.toDigits, hdm, hdn, List.append_nil, List.append_nil] at h2
  have h3 : dm = dn := by
    have := congrArg String.data h2
    simpa [List.asString] using this
  rw [← hvm, ← hvn, h3]

theorem idsFor_inj (pfx : String) {i j : Nat}
    (h : pfx ++ Nat.repr i = pfx ++ Nat.repr j) : i = j := by
  have h2 := congrArg String.data h
  rw [String.data_append, String.data_append] at h2
  have h3 := List.append_cancel_left h2
  exact nat_repr_inj (String.ext h3)

theorem idsFor_nodup (pfx : String) (n : Nat) : (idsFor pfx n).Nodup := by
  refine List.Nodup.map_on ?_ (List.nodup_range n)
  intro i _ j _ h
  exact idsFor_inj pfx h

theorem ne_of_data_head {p q : String} (x y : String)
    {c d : Char} {pt qt : List Char}
    (hp : p.data = c :: pt) (hq : q.data = d :: qt) (hcd : c ≠ d) :
    p ++ x ≠ q ++ y := by
  intro h
  have h2 := congrArg String.data h
  rw [String.data_append, String.data_append, hp, hq] at h2
  exact hcd (List.cons.injEq .. |>.mp h2).1

theorem eraseWs_append (a b : List Char) :
    eraseWs (a ++ b) = eraseWs a ++ eraseWs b := by
  simp [eraseWs, List.filter_append]

theorem eraseWs_flatten (L : List (List Char)) :
    eraseWs L.flatten = (L.map eraseWs).flatten := by
  induction L with
  | nil => rfl
  | cons a t ih => simp [List.flatten, eraseWs_append, ih]

theorem eraseWs_dropWhileWs (l : List Char) :
    eraseWs (l.dropWhile isWsChar) = eraseWs l := by
  induction l with
  | nil => rfl
  | cons c t ih =>
      by_cases hc : isWsChar c = true
      · rw [List.dropWhile_cons, if_pos hc, ih]
        simp [eraseWs, List.filter_cons, hc]
      · simp [List.dropWhile_cons, hc]

theorem eraseWs_reverse (l : List Char) :
    eraseWs l.reverse = (eraseWs l).reverse := by
  simp [eraseWs, List.filter_reverse]

theorem eraseWs_strip (l : List Char) : eraseWs (stripChars l) = eraseWs l := by
  unfold stripChars
  rw [eraseWs_reverse, eraseWs_dropWhileWs, eraseWs_reverse,
    List.reverse_reverse, eraseWs_dropWhileWs]

theorem eraseWs_drop_one {s t : List Char} (h : s = '\n' :: t) :
    eraseWs (s.drop 1) = eraseWs s := by
  subst h
  simp [eraseWs, List.filter_cons, isWsChar]

theorem filterMap_ifPass {α β : Type} (p : α → Prop) [DecidablePred p] (g : α → β)
    (l : List α) (h : ∀ x ∈ l, p x) :
    l.filterMap (fun x => if p x then some (g x) else none) = l.map g := by
  induction l with
  | nil => rfl
  | cons a t ih =>
      rw [List.filterMap_cons, List.map_cons]
      rw [if_pos (h a (List.mem_cons_self a t))]
      rw [ih (fun x hx => h x (List.mem_cons_of_mem a hx))]

theorem chunk_constitution_shape {t c : List Char} (h : c ∈ chunk_constitution t) :
    ∃ frag, c = constLabel ++ frag ∧ 30 < frag.length := by
  obtain ⟨a, _, ha⟩ := List.mem_filterMap.mp h
  by_cases hlen : 30 < (stripChars a).length
  · rw [if_pos hlen] at ha
    exact ⟨stripChars a, (Option.some.injEq .. |>.mp ha).symm, hlen⟩
  · rw [if_neg hlen] at ha
    exact absurd ha (Option.noConfusion)

theorem chunk_police_act_shape {t c : List Char} (h : c ∈ chunk_police_act t) :
    ∃ frag, c = policeLabel ++ frag ∧ 50 < frag.length := by
  obtain ⟨a, _, ha⟩ := List.mem_filterMap.mp h
  by_cases hlen : 50 < (stripChars a).length
  · rw [if_pos hlen] at ha
    exact ⟨stripChars a, (Option.some.injEq .. |>.mp ha).symm, hlen⟩
  · rw [if_neg hlen] at ha
    exact absurd ha (Option.noConfusion)

theorem chunk_tenancy_law_shape {t c : List Char} (h : c ∈ chunk_tenancy_law t) :
    ∃ frag, c = tenancyLabel ++ frag ∧ 50 < frag.length := by
  obtain ⟨a, _, ha⟩ := List.mem_filterMap.mp h
  by_cases hc : 50 < (stripChars a).length ∧ containsSeq tocMarker (stripChars a) = false
  · rw [if_pos hc] at ha
    exact ⟨stripChars a, (Option.some.injEq .. |>.mp ha).symm, hc.1⟩
  · rw [if_neg hc] at ha
    exact absurd ha (Option.noConfusion)

theorem mkRows_map_fst (pfx : String) (chunks : List (List Char)) :
    (mkRows pfx chunks).map Prod.fst = idsFor pfx chunks.length := by
  unfold mkRows idsFor
  rw [List.map_map]
  have hz : ((List.range chunks.length).zip chunks).map
      (Prod.fst ∘ fun p => (pfx ++ Nat.repr p.1, p.2)) =
      ((List.range chunks.length).zip chunks).map ((fun i => pfx ++ Nat.repr i) ∘ Prod.fst) := rfl
  rw [hz, ← List.map_map, List.map_fst_zip _ _ (by simp)]

theorem mkRows_mem {pfx : String} {chunks : List (List Char)}
    {r : String × List Char} (h : r ∈ mkRows pfx chunks) :
    ∃ i ch, r = (pfx ++ Nat.repr i, ch) ∧ ch ∈ chunks := by
  obtain ⟨⟨i, ch⟩, hmem, heq⟩ := List.mem_map.mp h
  exact ⟨i, ch, heq.symm, (List.of_mem_zip hmem).2⟩

theorem loadDoc_rows (env : Env) (path : String)
    (ck : List Char → List (List Char)) (pfx : String) (e : Engine) :
    ∃ chs, (loadDoc env path ck pfx e).rows = e.rows ++ mkRows pfx chs ∧
      (chs = [] ∨ ∃ raw, env.fs path = some raw ∧ chs = ck (clean_text raw)) := by
  unfold loadDoc
  cases hfs : env.fs path with
  | none => exact ⟨[], by simp [mkRows], Or.inl rfl⟩
  | some raw =>
      by_cases hemp : (ck (clean_text raw)).isEmpty = true
      · refine ⟨[], ?_, Or.inl rfl⟩
        simp [hemp, mkRows]
      · refine ⟨ck (clean_text raw), ?_, Or.inr ⟨raw, rfl, rfl⟩⟩
        simp [hemp]

theorem loadDoc_is_loaded (env : Env) (path : String)
    (ck : List Char → List (List Char)) (pfx : String) (e : Engine) :
    (loadDoc env path ck pfx e).is_loaded = e.is_loaded := by
  unfold loadDoc
  cases env.fs path with
  | none => rfl
  | some raw =>
      by_cases hemp : (ck (clean_text raw)).isEmpty = true
      · simp [hemp]
      · simp [hemp]

theorem load_is_loaded (env : Env) (e : Engine) :
    (load_constitution env e).is_loaded = true := by
  unfold load_constitution
  by_cases h : e.is_loaded = true
  · simp [h]
  · simp [h]

theorem length_rerank (score : List Char → List Char → Int) (q : List Char)
    (cands : List (List Char)) : (rerank score q cands).length = cands.length := by
  unfold rerank
  rw [length_sortStable]
  simp

theorem length_broadSearch (env : Env) (e : Engine) (q : List Char) (k : Nat) :
    (broadSearch env e q k).length = min k e.rows.length := by
  unfold broadSearch
  rw [List.length_take, length_sortStable]
  simp

theorem query_law_eq (env : Env) (e : Engine) (q : List Char) (k1 k2 : Nat) :
    query_law env e q k1 k2 =
      ((rerank env.crossScore q (broadSearch env (ensureLoaded env e) q k1)).take k2).map
        Prod.fst := rfl

theorem length_query_law (env : Env) (e : Engine) (q : List Char) (k1 k2 : Nat) :
    (query_law env e q k1 k2).length =
      min k2 (min k1 (ensureLoaded env e).rows.length) := by
  rw [query_law_eq]
  simp [List.length_take, length_rerank, length_broadSearch]

/-- A concrete environment with no files and constant model scores, used
by the evaluation witnesses. -/
def envNone : Env :=
  { fs := fun _ => none, dist := fun _ _ => 0, crossScore := fun _ _ => 0 }

/-- C1: for every question, every initial_k at least 1 and every final_k
at least 1, query_law returns at most min final_k n results where n is the
number of indexed chunks after the load-on-use step, the returned count
never exceeds the broad-search candidate count, and the candidate count is
at most initial_k. -/
theorem c1_query_law_counts (env : Env) (e : Engine) (q : List Char)
    (k1 k2 : Nat) (hk1 : 1 ≤ k1) (hk2 : 1 ≤ k2) :
    (query_law env e q k1 k2).length ≤ min k2 (ensureLoaded env e).rows.length ∧
    (query_law env e q k1 k2).length ≤
      (broadSearch env (ensureLoaded env e) q k1).length ∧
    (broadSearch env (ensureLoaded env e) q k1).length ≤ k1 := by
  rw [length_query_law, length_broadSearch]
  omega

/-- C1 witness: the bounds evaluated at a concrete engine and query. -/
theorem c1_query_law_counts_witness :
    (1 ≤ 1 ∧ 1 ≤ 1) ∧
    ((query_law envNone engine0 [] 1 1).length ≤
        min 1 (ensureLoaded envNone engine0).rows.length ∧
      (query_law envNone engine0 [] 1 1).length ≤
        (broadSearch envNone (ensureLoaded envNone engine0) [] 1).length ∧
      (broadSearch envNone (ensureLoaded envNone engine0) [] 1).length ≤ 1) :=
  ⟨by decide, c1_query_law_counts envNone engine0 [] 1 1 (by decide) (by decide)⟩

/-- C3: when the index holds zero chunks after the load-on-use step,
query_law evaluates to the empty list (the embedding is a total function,
so no error is possible). -/
theorem c3_empty_index (env : Env) (e : Engine) (q : List Char) (k1 k2 : Nat)
    (h : (ensureLoaded env e).rows = []) : query_law env e q k1 k2 = [] := by
  have hl := length_query_law env e q k1 k2
  rw [h] at hl
  simp only [List.length_nil] at hl
  have : (query_law env e q k1 k2).length = 0 := by omega
  exact List.length_eq_zero.mp this

/-- C3 witness: an engine with no documents yields the empty result. -/
theorem c3_empty_index_witness :
    (ensureLoaded envNone engine0).rows = [] ∧
      query_law envNone engine0 ("anything").toList 15 3 = [] :=
  ⟨by decide, c3_empty_index envNone engine0 (("anything").toList) 15 3 (by decide)⟩

/-- C4: calling load_constitution twice produces exactly the state of
calling it once; in particular the chunk count is unchanged and the
second call adds nothing. -/
theorem c4_load_idempotent (env : Env) (e : Engine) :
    load_constitution env (load_constitution env e) = load_constitution env e ∧
    (load_constitution env (load_constitution env e)).rows.length =
      (load_constitution env e).rows.length := by
  have h : load_constitution env (load_constitution env e) = load_constitution env e := by
    conv_lhs => rw [load_constitution]
    rw [if_pos (load_is_loaded env e)]
  exact ⟨h, by rw [h]⟩

/-- C2: the reranking step permutes the scored candidates, orders them by
score descending, keeps equal-score ties in their original retrieval
order (for every score value, the candidates carrying that score appear
exactly as in the retrieval order), and is deterministic: the same score
function on the same question and candidate list produces the same
order. -/
theorem c2_rerank_stable (score : List Char → List Char → Int) (q : List Char)
    (cands : List (List Char)) :
    (rerank score q cands).Perm (cands.zip (cands.map (score q))) ∧
    (rerank score q cands).Pairwise (fun x y => y.2 ≤ x.2) ∧
    (∀ s : Int, (rerank score q cands).filter (fun x => decide (x.2 = s)) =
      (cands.zip (cands.map (score q))).filter (fun x => decide (x.2 = s))) ∧
    (∀ score2 : List Char → List Char → Int, (∀ a b, score a b = score2 a b) →
      rerank score q cands = rerank score2 q cands) := by
  refine ⟨perm_sortStable _ _, ?_, ?_, ?_⟩
  · have hp := pairwise_sortStable (fun x y : List Char × Int => decide (y.2 ≤ x.2))
      (fun a b => by
        rcases Int.le_total b.2 a.2 with h | h
        · exact Or.inl (decide_eq_true h)
        · exact Or.inr (decide_eq_true h))
      (fun a b c hab hbc =>
        decide_eq_true (le_trans (of_decide_eq_true hbc) (of_decide_eq_true hab)))
      (cands.zip (cands.map (score q)))
    exact hp.imp (fun h => of_decide_eq_true h)
  · intro s
    exact filter_sortStable _ _
      (fun a c hpa hr => by
        have ha : a.2 = s := of_decide_eq_true hpa
        have hc : ¬ c.2 ≤ a.2 := by
          intro hle
          rw [decide_eq_true hle] at hr
          exact Bool.true_eq_false.mp hr
        exact decide_eq_false (fun hcs : c.2 = s => hc (by omega))) _
  · intro score2 hsc
    unfold rerank
    have : cands.map (score q) = cands.map (score2 q) :=
      List.map_congr_left (fun a _ => hsc q a)
    rw [this]

/-- C2 witness: the reranking properties evaluated on a concrete
candidate list containing an equal-score tie. -/
theorem c2_rerank_stable_witness :
    (rerank (fun _ d => (d.length : Int)) ("q").toList
        [("aa").toList, ("bb").toList, ("c").toList]).Perm
      ([("aa").toList, ("bb").toList, ("c").toList].zip
        ([("aa").toList, ("bb").toList, ("c").toList].map
          ((fun _ d => (d.length : Int)) (("q").toList)))) ∧
    (rerank (fun _ d => (d.length : Int)) ("q").toList
        [("aa").toList, ("bb").toList, ("c").toList]).Pairwise
      (fun x y => y.2 ≤ x.2) ∧
    (rerank (fun _ d => (d.length : Int)) ("q").toList
        [("aa").toList, ("bb").toList, ("c").toList]).filter
        (fun x => decide (x.2 = 2)) =
      ([("aa").toList, ("bb").toList, ("c").toList].zip
        ([("aa").toList, ("bb").toList, ("c").toList].map
          ((fun _ d => (d.length : Int)) (("q").toList)))).filter
        (fun x => decide (x.2 = 2)) ∧
    rerank (fun _ d => (d.length : Int)) ("q").toList
        [("aa").toList, ("bb").toList, ("c").toList] =
      rerank (fun _ d => (d.length : Int)) ("q").toList
        [("aa").toList, ("bb").toList, ("c").toList] := by
  obtain ⟨h1, h2, h3, h4⟩ := c2_rerank_stable (fun _ d => (d.length : Int))
    (("q").toList) [("aa").toList, ("bb").toList, ("c").toList]
  exact ⟨h1, h2, h3 2, h4 (fun _ d => (d.length : Int)) (fun a b => rfl)⟩

/-- C8: an absent constitution file makes the load step skip that
document and continue with the police act and tenancy law blocks alone;
the loaded state is always reached; and with all three files absent the
load succeeds leaving the collection unchanged. -/
theorem c8_missing_sources (env : Env) (e : Engine) :
    (env.fs constPath = none →
      load_constitution env e =
        (if e.is_loaded then e
         else { (loadDoc env tenancyPath chunk_tenancy_law tenancyPfx
                  (loadDoc env policePath chunk_police_act policePfx e)) with
                is_loaded := true })) ∧
    (load_constitution env e).is_loaded = true ∧
    (env.fs constPath = none → env.fs policePath = none → env.fs tenancyPath = none →
      load_constitution env e = { e with is_loaded := true }) := by
  refine ⟨?_, load_is_loaded env e, ?_⟩
  · intro h1
    unfold load_constitution
    have hc : loadDoc env constPath chunk_constitution constPfx e = e := by
      unfold loadDoc
      rw [h1]
    rw [hc]
  · intro h1 h2 h3
    unfold load_constitution
    have hc : loadDoc env constPath chunk_constitution constPfx e = e := by
      unfold loadDoc; rw [h1]
    have hp : loadDoc env policePath chunk_police_act policePfx e = e := by
      unfold loadDoc; rw [h2]
    have ht : loadDoc env tenancyPath chunk_tenancy_law tenancyPfx e = e := by
      unfold loadDoc; rw [h3]
    simp only [hc, hp, ht]
    by_cases hl : e.is_loaded = true
    · rw [if_pos hl]
      cases e with
      | mk rows fl => simp at hl; rw [hl]
    · rw [if_neg hl]

/-- C8 witness: loading with every source file absent reaches the loaded
state with an unchanged empty collection. -/
theorem c8_missing_sources_witness :
    (load_constitution envNone engine0 =
      (if engine0.is_loaded then engine0
       else { (loadDoc envNone tenancyPath chunk_tenancy_law tenancyPfx
                (loadDoc envNone policePath chunk_police_act policePfx engine0)) with
              is_loaded := true })) ∧
    (load_constitution envNone engine0).is_loaded = true ∧
    load_constitution envNone engine0 = { engine0 with is_loaded := true } := by
  obtain ⟨h1, h2, h3⟩ := c8_missing_sources envNone engine0
  exact ⟨h1 rfl, h2, h3 rfl rfl rfl⟩

/-- C5: no fragment whose stripped text is at or below the configured
minimum length (30 for the constitution splitter, 50 for the police act
and tenancy law splitters) is ever produced for indexing: every produced
chunk is the source label followed by a fragment strictly longer than the
threshold. -/
theorem c5_min_length :
    (∀ t c, c ∈ chunk_constitution t →
      ∃ frag, c = constLabel ++ frag ∧ 30 < frag.length) ∧
    (∀ t c, c ∈ chunk_police_act t →
      ∃ frag, c = policeLabel ++ frag ∧ 50 < frag.length) ∧
    (∀ t c, c ∈ chunk_tenancy_law t →
      ∃ frag, c = tenancyLabel ++ frag ∧ 50 < frag.length) :=
  ⟨fun _ _ h => chunk_constitution_shape h,
   fun _ _ h => chunk_police_act_shape h,
   fun _ _ h => chunk_tenancy_law_shape h⟩

/-- Concrete constitution text used by evaluation witnesses: one section
whose stripped length is 36. -/
def tCw : List Char := ("Section 1. aaaaaaaaaaaaaaaaaaaaaaaaa").toList

/-- Concrete police act text used by evaluation witnesses: one section
whose stripped length exceeds 50. -/
def tPw : List Char :=
  ("\n1. bbbbbbbbbbbbbbbbbbbbbbbbbbbbbbbbbbbbbbbbbbbbbbbbbbbbbbbb").toList

/-- Concrete tenancy law text used by evaluation witnesses: one section
whose stripped length exceeds 50. -/
def tTw : List Char :=
  ("\n1. cccccccccccccccccccccccccccccccccccccccccccccccccccccccc").toList

/-- C5 witness: the three splitters evaluated on concrete documents each
produce a labelled chunk above the threshold. -/
theorem c5_min_length_witness :
    ((constLabel ++ tCw) ∈ chunk_constitution tCw ∧
      ∃ frag, constLabel ++ tCw = constLabel ++ frag ∧ 30 < frag.length) ∧
    ((policeLabel ++ tPw.drop 1) ∈ chunk_police_act tPw ∧
      ∃ frag, policeLabel ++ tPw.drop 1 = policeLabel ++ frag ∧ 50 < frag.length) ∧
    ((tenancyLabel ++ tTw.drop 1) ∈ chunk_tenancy_law tTw ∧
      ∃ frag, tenancyLabel ++ tTw.drop 1 = tenancyLabel ++ frag ∧ 50 < frag.length) :=
  ⟨⟨by decide, c5_min_length.1 tCw (constLabel ++ tCw) (by decide)⟩,
   ⟨by decide, c5_min_length.2.1 tPw (policeLabel ++ tPw.drop 1) (by decide)⟩,
   ⟨by decide, c5_min_length.2.2 tTw (tenancyLabel ++ tTw.drop 1) (by decide)⟩⟩

theorem load0_rows_eq (env : Env) :
    (load_constitution env engine0).rows =
      (loadDoc env tenancyPath chunk_tenancy_law tenancyPfx
        (loadDoc env policePath chunk_police_act policePfx
          (loadDoc env constPath chunk_constitution constPfx engine0))).rows := rfl

/-- C9: every row the load operation puts into a fresh collection pairs
an id carrying the document id prefix with a chunk text that begins with
that same document's source label; the label is part of the stored text
itself. -/
theorem c9_source_label (env : Env) (r : String × List Char)
    (h : r ∈ (load_constitution env engine0).rows) :
    ((∃ s, r.1 = constPfx ++ s) ∧ ∃ frag, r.2 = constLabel ++ frag) ∨
    ((∃ s, r.1 = policePfx ++ s) ∧ ∃ frag, r.2 = policeLabel ++ frag) ∨
    ((∃ s, r.1 = tenancyPfx ++ s) ∧ ∃ frag, r.2 = tenancyLabel ++ frag) := by
  rw [load0_rows_eq] at h
  obtain ⟨c1, h1, hw1⟩ := loadDoc_rows env constPath chunk_constitution constPfx engine0
  obtain ⟨c2, h2, hw2⟩ := loadDoc_rows env policePath chunk_police_act policePfx
    (loadDoc env constPath chunk_constitution constPfx engine0)
  obtain ⟨c3, h3, hw3⟩ := loadDoc_rows env tenancyPath chunk_tenancy_law tenancyPfx
    (loadDoc env policePath chunk_police_act policePfx
      (loadDoc env constPath chunk_constitution constPfx engine0))
  rw [h3, h2, h1] at h
  have h0 : engine0.rows = [] := rfl
  rw [h0, List.nil_append] at h
  rcases List.mem_append.mp h with h | h
  · rcases List.mem_append.mp h with h | h
    · obtain ⟨i, ch, hr, hch⟩ := mkRows_mem h
      rcases hw1 with hc | ⟨raw, _, hc⟩
      · rw [hc] at hch; exact absurd hch (List.not_mem_nil ch)
      · rw [hc] at hch
        obtain ⟨frag, hf, _⟩ := chunk_constitution_shape hch
        exact Or.inl ⟨⟨Nat.repr i, by rw [hr]⟩, frag, by rw [hr]; exact hf⟩
    · obtain ⟨i, ch, hr, hch⟩ := mkRows_mem h
      rcases hw2 with hc | ⟨raw, _, hc⟩
      · rw [hc] at hch; exact absurd hch (List.not_mem_nil ch)
      · rw [hc] at hch
        obtain ⟨frag, hf, _⟩ := chunk_police_act_shape hch
        exact Or.inr (Or.inl ⟨⟨Nat.repr i, by rw [hr]⟩, frag, by rw [hr]; exact hf⟩)
  · obtain ⟨i, ch, hr, hch⟩ := mkRows_mem h
    rcases hw3 with hc | ⟨raw, _, hc⟩
    · rw [hc] at hch; exact absurd hch (List.not_mem_nil ch)
    · rw [hc] at hch
      obtain ⟨frag, hf, _⟩ := chunk_tenancy_law_shape hch
      exact Or.inr (Or.inr ⟨⟨Nat.repr i, by rw [hr]⟩, frag, by rw [hr]; exact hf⟩)

/-- Environment holding only the witness constitution document. -/
def envConstOnly : Env :=
  { fs := fun p => if p = constPath then some tCw else none,
    dist := fun _ _ => 0, crossScore := fun _ _ => 0 }

/-- C9 witness: the single row loaded from the witness constitution file
carries the const id prefix and the constitution source label. -/
theorem c9_source_label_witness :
    ("const_0", constLabel ++ tCw) ∈ (load_constitution envConstOnly engine0).rows ∧
    (((∃ s, ("const_0" : String) = constPfx ++ s) ∧
        ∃ frag, constLabel ++ tCw = constLabel ++ frag) ∨
      ((∃ s, ("const_0" : String) = policePfx ++ s) ∧
        ∃ frag, constLabel ++ tCw = policeLabel ++ frag) ∨
      ((∃ s, ("const_0" : String) = tenancyPfx ++ s) ∧
        ∃ frag, constLabel ++ tCw = tenancyLabel ++ frag)) :=
  ⟨by decide, c9_source_label envConstOnly ("const_0", constLabel ++ tCw) (by decide)⟩

theorem idsFor_disjoint {p q : String} {c d : Char} {pt qt : List Char}
    (hp : p.data = c :: pt) (hq : q.data = d :: qt) (hcd : c ≠ d) (n m : Nat) :
    (idsFor p n).Disjoint (idsFor q m) := by
  intro a ha hb
  obtain ⟨i, _, hi⟩ := List.mem_map.mp ha
  obtain ⟨j, _, hj⟩ := List.mem_map.mp hb
  exact ne_of_data_head (Nat.repr i) (Nat.repr j) hp hq hcd (hi.trans hj.symm)

/-- C10: within one execution of the load operation on a fresh engine the
id list is the three per-document blocks in order, each block being its
own prefix followed by the consecutive indices, and the whole id list has
no duplicate, so no row added in the load overwrites another. -/
theorem c10_ids_nodup (env : Env) :
    (∃ n1 n2 n3,
      (load_constitution env engine0).rows.map Prod.fst =
        idsFor constPfx n1 ++ idsFor policePfx n2 ++ idsFor tenancyPfx n3) ∧
    ((load_constitution env engine0).rows.map Prod.fst).Nodup := by
  obtain ⟨c1, h1, _⟩ := loadDoc_rows env constPath chunk_constitution constPfx engine0
  obtain ⟨c2, h2, _⟩ := loadDoc_rows env policePath chunk_police_act policePfx
    (loadDoc env constPath chunk_constitution constPfx engine0)
  obtain ⟨c3, h3, _⟩ := loadDoc_rows env tenancyPath chunk_tenancy_law tenancyPfx
    (loadDoc env policePath chunk_police_act policePfx
      (loadDoc env constPath chunk_constitution constPfx engine0))
  have hr : (load_constitution env engine0).rows.map Prod.fst =
      idsFor constPfx c1.length ++ idsFor policePfx c2.length ++
        idsFor tenancyPfx c3.length := by
    rw [load0_rows_eq, h3, h2, h1]
    have h0 : engine0.rows = [] := rfl
    rw [h0, List.nil_append, List.map_append, List.map_append,
      mkRows_map_fst, mkRows_map_fst, mkRows_map_fst, List.append_assoc]
  refine ⟨⟨c1.length, c2.length, c3.length, hr⟩, ?_⟩
  rw [hr]
  rw [List.nodup_append, List.nodup_append, List.disjoint_append_left]
  refine ⟨⟨idsFor_nodup _ _, idsFor_nodup _ _, ?_⟩, idsFor_nodup _ _, ?_, ?_⟩
  · exact idsFor_disjoint (p := constPfx) (q := policePfx) rfl rfl (by decide) _ _
  · exact idsFor_disjoint (p := constPfx) (q := tenancyPfx) rfl rfl (by decide) _ _
  · exact idsFor_disjoint (p := policePfx) (q := tenancyPfx) rfl rfl (by decide) _ _

theorem bdryConst_head {l : List Char} (hl : bdryConst l = true) :
    ∃ tl, l = '\n' :: tl := by
  unfold bdryConst at hl
  split at hl
  · rename_i rest
    exact ⟨rest, rfl⟩
  · exact absurd hl (by simp)

/-- C6: for a document whose boundary markers are well formed (the text
starts at a section header and every raw fragment survives the length
filter), concatenating the produced chunks with the injected source label
removed reconstructs the original text up to whitespace normalization: the
non-whitespace character sequences agree exactly, so no non-whitespace
content is lost or reordered. -/
theorem c6_reconstruction (t : List Char)
    (hstart : dropUntilSecHeader t = t)
    (hlen : ∀ ch ∈ rawChunksConstitution t, 30 < (stripChars ch).length) :
    eraseWs (((chunk_constitution t).map
      (fun c => c.drop constLabel.length)).flatten) = eraseWs t := by
  have hpass : chunk_constitution t = (rawChunksConstitution t).map
      (fun ch => constLabel ++ stripChars ch) :=
    filterMap_ifPass (fun ch => 30 < (stripChars ch).length)
      (fun ch => constLabel ++ stripChars ch) _ hlen
  rw [hpass, List.map_map]
  have hdrop : ((fun c : List Char => c.drop constLabel.length) ∘
      (fun ch => constLabel ++ stripChars ch)) = fun ch => stripChars ch := by
    funext ch
    simp [Function.comp, List.drop_left]
  rw [hdrop, eraseWs_flatten, List.map_map]
  have hes : (eraseWs ∘ fun ch => stripChars ch) = eraseWs := by
    funext ch
    exact eraseWs_strip ch
  rw [hes]
  cases t with
  | nil => rfl
  | cons c cs =>
      have hraw : rawChunksConstitution (c :: cs) =
          (splitOnBdry bdryConst (c :: cs)).1 ::
            ((splitOnBdry bdryConst (c :: cs)).2).map (fun s => s.drop 1) := by
        unfold rawChunksConstitution
        rw [hstart]
      rw [hraw]
      simp only [List.map_cons, List.map_map, List.flatten_cons]
      have hseg : ((splitOnBdry bdryConst (c :: cs)).2).map (eraseWs ∘ fun s => s.drop 1) =
          ((splitOnBdry bdryConst (c :: cs)).2).map eraseWs := by
        refine List.map_congr_left ?_
        intro s hs
        obtain ⟨tl, htl⟩ := splitOnBdry_snd_head bdryConst
          (fun l hl => bdryConst_head hl) (c :: cs) s hs
        exact eraseWs_drop_one htl
      rw [hseg]
      have hflat : ((splitOnBdry bdryConst (c :: cs)).2.map eraseWs).flatten =
          eraseWs ((splitOnBdry bdryConst (c :: cs)).2).flatten :=
        (eraseWs_flatten _).symm
      rw [hflat, ← eraseWs_append, splitOnBdry_concat]

/-- Concrete two-section constitution text for the C6 witness. -/
def tCw6 : List Char :=
  ("Section 1. aaaaaaaaaaaaaaaaaaaaaaaaa\nSection 2. bbbbbbbbbbbbbbbbbbbbbbbbb").toList

/-- C6 witness: the reconstruction equality evaluated on a concrete well
formed two-section document. -/
theorem c6_reconstruction_witness :
    (dropUntilSecHeader tCw6 = tCw6 ∧
      ∀ ch ∈ rawChunksConstitution tCw6, 30 < (stripChars ch).length) ∧
    eraseWs (((chunk_constitution tCw6).map
      (fun c => c.drop constLabel.length)).flatten) = eraseWs tCw6 :=
  ⟨⟨by decide, by decide⟩, c6_reconstruction tCw6 (by decide) (by decide)⟩

/-- C7 (amended): loading a document with exactly three boundary marked
sections, each with stripped length strictly greater than 30 (the filter
keeps only fragments longer than 30 characters, so a 30 character section
would be dropped), produces exactly the three indexed ids const_0,
const_1, const_2 in order. -/
theorem c7_three_sections (raw : List Char) (env : Env) (a b c : List Char)
    (hraw : rawChunksConstitution (clean_text raw) = [a, b, c])
    (ha : 30 < (stripChars a).length) (hb : 30 < (stripChars b).length)
    (hc : 30 < (stripChars c).length)
    (hfs : env.fs constPath = some raw)
    (hfs2 : env.fs policePath = none) (hfs3 : env.fs tenancyPath = none) :
    (load_constitution env engine0).rows.map Prod.fst =
      ["const_0", "const_1", "const_2"] := by
  have hchunks : chunk_constitution (clean_text raw) =
      [constLabel ++ stripChars a, constLabel ++ stripChars b,
        constLabel ++ stripChars c] := by
    have hall : ∀ x ∈ rawChunksConstitution (clean_text raw),
        30 < (stripChars x).length := by
      rw [hraw]
      intro x hx
      rcases List.mem_cons.mp hx with h | hx
      · exact h ▸ ha
      rcases List.mem_cons.mp hx with h | hx
      · exact h ▸ hb
      rcases List.mem_cons.mp hx with h | hx
      · exact h ▸ hc
      · exact absurd hx (List.not_mem_nil x)
    have hm := filterMap_ifPass (fun ch => 30 < (stripChars ch).length)
      (fun ch => constLabel ++ stripChars ch)
      (rawChunksConstitution (clean_text raw)) hall
    unfold chunk_constitution
    rw [hm, hraw]
    rfl
  have hpol : ∀ e, loadDoc env policePath chunk_police_act policePfx e = e := by
    intro e
    unfold loadDoc
    rw [hfs2]
  have hten : ∀ e, loadDoc env tenancyPath chunk_tenancy_law tenancyPfx e = e := by
    intro e
    unfold loadDoc
    rw [hfs3]
  rw [load0_rows_eq, hten, hpol]
  unfold loadDoc
  rw [hfs]
  simp only [hchunks, List.isEmpty_cons, Bool.false_eq_true, if_false]
  have h0 : engine0.rows = [] := rfl
  rw [h0, List.nil_append, mkRows_map_fst]
  have hlen3 : ([constLabel ++ stripChars a, constLabel ++ stripChars b,
      constLabel ++ stripChars c] : List (List Char)).length = 3 := rfl
  rw [hlen3]
  decide

/-- Concrete three-section document whose middle section strips to
exactly 30 characters. -/
def rawC7 : List Char :=
  ("Section 1. aaaaaaaaaaaaaaaaaaaaaaaaa\nSection 2. aaaaaaaaaaaaaaaaaaa\nSection 3. ccccccccccccccccccccccccc").toList

/-- Environment holding only the three-section counterexample document. -/
def envC7 : Env :=
  { fs := fun p => if p = constPath then some rawC7 else none,
    dist := fun _ _ => 0, crossScore := fun _ _ => 0 }

/-- C7 counterexample: a document with exactly three boundary marked
sections, each of stripped length at least 30 and none containing the
excluded heading, yields only the two ids const_0 and const_1, because
the filter discards the 30 character section: the claim quantified over
sections of length at least 30 is false. -/
theorem c7_three_sections_cex :
    (rawChunksConstitution (clean_text rawC7)).length = 3 ∧
    (∀ ch ∈ rawChunksConstitution (clean_text rawC7),
      30 ≤ (stripChars ch).length) ∧
    (∀ ch ∈ rawChunksConstitution (clean_text rawC7),
      containsSeq tocMarker (stripChars ch) = false) ∧
    (load_constitution envC7 engine0).rows.map Prod.fst = ["const_0", "const_1"] := by
  refine ⟨by decide, by decide, by decide, by decide⟩

/-- First section of the C7 witness document (36 characters). -/
def secC7one : List Char := ("Section 1. aaaaaaaaaaaaaaaaaaaaaaaaa").toList

/-- Second section of the C7 witness document (36 characters). -/
def secC7two : List Char := ("Section 2. bbbbbbbbbbbbbbbbbbbbbbbbb").toList

/-- Third section of the C7 witness document (36 characters). -/
def secC7three : List Char := ("Section 3. ccccccccccccccccccccccccc").toList

/-- The C7 witness document: three sections of 36 characters each. -/
def rawC7good : List Char := secC7one ++ '\n' :: secC7two ++ '\n' :: secC7three

/-- Environment holding only the C7 witness document. -/
def envC7good : Env :=
  { fs := fun p => if p = constPath then some rawC7good else none,
    dist := fun _ _ => 0, crossScore := fun _ _ => 0 }

/-- C7 witness: the amended statement evaluated on a concrete document
with three sections each strictly longer than 30 characters. -/
theorem c7_three_sections_witness :
    (rawChunksConstitution (clean_text rawC7good) =
        [secC7one, secC7two, secC7three] ∧
      30 < (stripChars secC7one).length ∧
      30 < (stripChars secC7two).length ∧
      30 < (stripChars secC7three).length ∧
      envC7good.fs constPath = some rawC7good ∧
      envC7good.fs policePath = none ∧ envC7good.fs tenancyPath = none) ∧
    (load_constitution envC7good engine0).rows.map Prod.fst =
      ["const_0", "const_1", "const_2"] :=
  ⟨⟨by decide, by decide, by decide, by decide, by decide, by decide, by decide⟩,
    c7_three_sections rawC7good envC7good secC7one secC7two secC7three
      (by decide) (by decide) (by decide) (by decide) (by decide) (by decide) (by decide)⟩

end CivicAccess
